import Mathlib

/-
Verification development for the GCP Namespace Revealer browser extension
(src/content.js, src/options.js and the vendored md5 digest).

The JavaScript sources are shallowly embedded:
  * strings become List Char, JS character codes become Nat via Char.toNat;
  * the regex scan over ID_REGEX = /\bx[0-9a-f]{16}\b/g (content.js line 19)
    becomes the executable function scan below, modelling matchAll's
    left-to-right search that advances lastIndex past each match;
  * DOM text nodes / elements become the inductive DomNode; cosmetic style
    properties set by the source (borderBottom, fontSize, opacity, marginLeft)
    are not modelled, element attributes that carry data (title,
    data-gcp-ns-annotated) are;
  * 32-bit JS arithmetic in the vendored md5 becomes Nat arithmetic with
    explicit reduction modulo 2 ^ 32.
-/

namespace GcpNs

/-! ## Token grammar (ID_REGEX, content.js line 19)

The regex word class \w is the ASCII set [A-Za-z0-9_]; a word boundary
requires the neighbouring character (when present) to lie outside it. -/

/-- JS regex word character [A-Za-z0-9_], decided on the code point. -/
def wordChar (c : Char) : Bool :=
  (97 ≤ c.toNat && c.toNat ≤ 122) || (65 ≤ c.toNat && c.toNat ≤ 90) ||
  (48 ≤ c.toNat && c.toNat ≤ 57) || c.toNat == 95

/-- Lowercase hexadecimal digit [0-9a-f], the character class of ID_REGEX. -/
def hexChar (c : Char) : Bool :=
  (48 ≤ c.toNat && c.toNat ≤ 57) || (97 ≤ c.toNat && c.toNat ≤ 102)

/-- A word boundary is satisfied next to a missing neighbour (string edge)
or next to a non-word character. -/
def boundaryOk : Option Char → Bool
  | none => true
  | some c => !(wordChar c)

/-- Does ID_REGEX match at the current position?  The argument prev is the
character immediately before the position (none at the string start); cs is
the suffix starting at the position.  Shape: word boundary, the literal
prefix character x, sixteen characters from [0-9a-f], word boundary. -/
def tokenAt (prev : Option Char) (cs : List Char) : Bool :=
  boundaryOk prev &&
  (match cs with
   | [] => false
   | c :: rest =>
     c == 'x' && decide (16 ≤ rest.length) && (rest.take 16).all hexChar &&
     boundaryOk (rest.drop 16).head?)

/-- One left-to-right pass of matchAll over the suffix cs, which begins at
absolute offset i of the scanned text.  A successful match emits its offset
and the 17 matched characters and resumes searching after them (lastIndex
advancement); the counter k implements that resumption one character at a
time so that the recursion is structural.  k is 0 except immediately after
a match, when it is 16 (the prefix character itself is consumed by the
emitting step). -/
def scanGo : Nat → Option Char → Nat → List Char → List (Nat × List Char)
  | _, _, _, [] => []
  | k + 1, _, i, c :: rest => scanGo k (some c) (i + 1) rest
  | 0, prev, i, c :: rest =>
    if tokenAt prev (c :: rest) then
      (i, c :: rest.take 16) :: scanGo 16 (some c) (i + 1) rest
    else
      scanGo 0 (some c) (i + 1) rest

/-- The Token Scanner: all matches of ID_REGEX in s with their start
offsets, as produced by text.matchAll(ID_REGEX) in annotateOrReplaceTextNode
(content.js lines 52-59) after the lastIndex reset. -/
def scan (s : List Char) : List (Nat × List Char) :=
  scanGo 0 none 0 s

/-- Specification-side predicate: ID_REGEX matches at offset i of s.  The
previous character is recovered as the last character of the prefix of
length i. -/
def posMatches (s : List Char) (i : Nat) : Bool :=
  tokenAt (s.take i).getLast? (s.drop i)

/-! ## Document tree and the Rewriter (annotateOrReplaceTextNode) -/

/-- A DOM node: a text node with its nodeValue, an element with tagName,
data-bearing attributes and ordered children, or any other node kind
(comment etc.), which the engine never touches. -/
inductive DomNode where
  | text : List Char → DomNode
  | element : List Char → List (List Char × List Char) → List DomNode → DomNode
  | other : DomNode

/-- The idMap loaded from chrome.storage.local: token → namespace pairs. -/
abbrev NsMap := List (List Char × List Char)

/-- Models the lookup `const ns = idMap[id]` combined with the truthiness
test `if (ns)` (content.js lines 81-83): a present key with an empty-string
value is falsy in JS and falls into the unknown-token branch. -/
def resolveNs (m : NsMap) (id : List Char) : Option (List Char) :=
  match m.lookup id with
  | some ns => if ns = [] then none else some ns
  | none => none

def titleAttr : List Char := "title".toList
def annMarkAttr : List Char := "data-gcp-ns-annotated".toList
def oneStr : List Char := "1".toList
def abbrTag : List Char := "ABBR".toList
def spanTag : List Char := "SPAN".toList
def strongTag : List Char := "STRONG".toList
def inputTag : List Char := "INPUT".toList
def textareaTag : List Char := "TEXTAREA".toList

/-- The text of the subdued suffix span built in annotate mode
(content.js line 103): two spaces, the literal marker, the namespace, a
closing parenthesis. -/
def annSuffix (ns : List Char) : List Char :=
  "  (namespace: ".toList ++ ns ++ ")".toList

/-- The node appended for one matched token (content.js lines 81-119):
a known id yields, in replace mode, an abbr element showing the namespace
with the original id kept in its title attribute, and in annotate mode a
marked span wrapping a strong element with the id and a span with the
annSuffix; an unknown id yields a plain text node with the id itself. -/
def fragFor (m : NsMap) (replaceMode : Bool) (id : List Char) : DomNode :=
  match resolveNs m id with
  | some ns =>
    if replaceMode then
      DomNode.element abbrTag [(titleAttr, id)] [DomNode.text ns]
    else
      DomNode.element spanTag [(annMarkAttr, oneStr)]
        [DomNode.element strongTag [] [DomNode.text id],
         DomNode.element spanTag [] [DomNode.text (annSuffix ns)]]
  | none => DomNode.text id

/-- The fragment-construction loop of annotateOrReplaceTextNode
(content.js lines 67-123): before each match the untouched slice
text.slice(lastIndex, idx), then the node for the match, and after the last
match the trailing slice text.slice(lastIndex). -/
def rewriteGo (m : NsMap) (replaceMode : Bool) (text : List Char) :
    Nat → List (Nat × List Char) → List DomNode
  | lastIndex, [] => [DomNode.text (text.drop lastIndex)]
  | lastIndex, (idx, id) :: rest =>
    DomNode.text ((text.drop lastIndex).take (idx - lastIndex)) ::
    fragFor m replaceMode id ::
    rewriteGo m replaceMode text (idx + id.length) rest

/-- annotateOrReplaceTextNode on a text node with nodeValue text: none when
the fast-path regex test fails (the node is left untouched), otherwise the
children of the DocumentFragment that replaces the node. -/
def annotateOrReplaceText (m : NsMap) (replaceMode : Bool) (text : List Char) :
    Option (List DomNode) :=
  let ms := scan text
  if ms.isEmpty then none else some (rewriteGo m replaceMode text 0 ms)

mutual

/-- The textContent of a node: its own text for a text node, the
concatenated text of the children for an element (attributes such as the
abbr title do not contribute), empty for other nodes. -/
def textContent : DomNode → List Char
  | DomNode.text s => s
  | DomNode.element _ _ children => textContentList children
  | DomNode.other => []

/-- Concatenated textContent of a list of sibling nodes. -/
def textContentList : List DomNode → List Char
  | [] => []
  | n :: ns => textContent n ++ textContentList ns

end

/-! ## Tree Walker (walk, content.js lines 136-154)

walk iterates `for (child = node.firstChild; child; child = child.nextSibling)`
and the body may replace child (a matched text node) with a fragment, which
detaches it; nextSibling of a detached node is null, so the loop then
stops, leaving the remaining siblings unvisited.  walkChildren models that
live iteration faithfully. -/

mutual

/-- walk on a single node, returning the nodes that stand in its place
afterwards (a replaced text node becomes its fragment children; every
other node stays itself, possibly with rewritten descendants). -/
def walkNode (m : NsMap) (replaceMode : Bool) : DomNode → List DomNode
  | DomNode.text s =>
    match annotateOrReplaceText m replaceMode s with
    | none => [DomNode.text s]
    | some frags => frags
  | DomNode.element tag attrs children =>
    if tag = inputTag ∨ tag = textareaTag then
      [DomNode.element tag attrs children]
    else
      [DomNode.element tag attrs (walkChildren m replaceMode children)]
  | DomNode.other => [DomNode.other]

/-- The child loop of walk.  When a text child is replaced the original
child is detached, its nextSibling is null and iteration ends: the later
siblings are returned unprocessed. -/
def walkChildren (m : NsMap) (replaceMode : Bool) : List DomNode → List DomNode
  | [] => []
  | DomNode.text s :: rest =>
    (match annotateOrReplaceText m replaceMode s with
     | none => DomNode.text s :: walkChildren m replaceMode rest
     | some frags => frags ++ rest)
  | DomNode.element tag attrs children :: rest =>
    walkNode m replaceMode (DomNode.element tag attrs children) ++
    walkChildren m replaceMode rest
  | DomNode.other :: rest =>
    DomNode.other :: walkChildren m replaceMode rest

end

/-! ## The vendored md5 digest and ID derivation (options.js)

JS 32-bit arithmetic is modelled on Nat with explicit reduction modulo
2 ^ 32: every operation below is congruent modulo 2 ^ 32 to the float /
ToInt32 / ToUint32 behaviour of the source, and only the residue ever
reaches the hex output.  Negative source constants are kept verbatim as
Int literals and reduced by t32. -/

/-- 2 ^ 32, the JS 32-bit modulus. -/
def M32 : Nat := 4294967296

/-- A signed JS constant as its unsigned 32-bit residue. -/
def t32 (i : Int) : Nat := (i % (4294967296 : Int)).toNat

/-- Left rotation of a 32-bit word: (a << s) | (a >>> (32 - s)). -/
def rotl (n s : Nat) : Nat := ((n <<< s) ||| (n >>> (32 - s))) % M32

/-- 32-bit complement, faithful to JS ~b for b < 2 ^ 32. -/
def compl32 (n : Nat) : Nat := n ^^^ (M32 - 1)

/-- cmn of the source: a = ((a + q) | 0) + ((x + t) | 0);
return (((a << s) | (a >>> (32 - s))) + b) | 0. -/
def cmn (q a b x s : Nat) (t : Int) : Nat :=
  (rotl ((a + q + x + t32 t) % M32) s + b) % M32

/-- Round 1 function: F(X,Y,Z) = (X & Y) | (~X & Z). -/
def ff (a b c d x s : Nat) (t : Int) : Nat :=
  cmn ((b &&& c) ||| (compl32 b &&& d)) a b x s t

/-- Round 2 function: G(X,Y,Z) = (X & Z) | (Y & ~Z). -/
def gg (a b c d x s : Nat) (t : Int) : Nat :=
  cmn ((b &&& d) ||| (c &&& compl32 d)) a b x s t

/-- Round 3 function: H(X,Y,Z) = X ^ Y ^ Z. -/
def hh (a b c d x s : Nat) (t : Int) : Nat :=
  cmn (b ^^^ c ^^^ d) a b x s t

/-- Round 4 function: I(X,Y,Z) = Y ^ (X | ~Z). -/
def ii (a b c d x s : Nat) (t : Int) : Nat :=
  cmn (c ^^^ (b ||| compl32 d)) a b x s t

/-- md5cycle: process one 512-bit block, updating the 4-word state. -/
def md5cycle (x : List Nat) (kk : List Nat) : List Nat :=
  let k := fun j => kk.getD j 0
  let a := x.getD 0 0
  let b := x.getD 1 0
  let c := x.getD 2 0
  let d := x.getD 3 0
  let a := ff a b c d (k 0) 7 (-680876936)
  let d := ff d a b c (k 1) 12 (-389564586)
  let c := ff c d a b (k 2) 17 606105819
  let b := ff b c d a (k 3) 22 (-1044525330)
  let a := ff a b c d (k 4) 7 (-176418897)
  let d := ff d a b c (k 5) 12 1200080426
  let c := ff c d a b (k 6) 17 (-1473231341)
  let b := ff b c d a (k 7) 22 (-45705983)
  let a := ff a b c d (k 8) 7 1770035416
  let d := ff d a b c (k 9) 12 (-1958414417)
  let c := ff c d a b (k 10) 17 (-42063)
  let b := ff b c d a (k 11) 22 (-1990404162)
  let a := ff a b c d (k 12) 7 1804603682
  let d := ff d a b c (k 13) 12 (-40341101)
  let c := ff c d a b (k 14) 17 (-1502002290)
  let b := ff b c d a (k 15) 22 1236535329
  let a := gg a b c d (k 1) 5 (-165796510)
  let d := gg d a b c (k 6) 9 (-1069501632)
  let c := gg c d a b (k 11) 14 643717713
  let b := gg b c d a (k 0) 20 (-373897302)
  let a := gg a b c d (k 5) 5 (-701558691)
  let d := gg d a b c (k 10) 9 38016083
  let c := gg c d a b (k 15) 14 (-660478335)
  let b := gg b c d a (k 4) 20 (-405537848)
  let a := gg a b c d (k 9) 5 568446438
  let d := gg d a b c (k 14) 9 (-1019803690)
  let c := gg c d a b (k 3) 14 (-187363961)
  let b := gg b c d a (k 8) 20 1163531501
  let a := gg a b c d (k 13) 5 (-1444681467)
  let d := gg d a b c (k 2) 9 (-51403784)
  let c := gg c d a b (k 7) 14 1735328473
  let b := gg b c d a (k 12) 20 (-1926607734)
  let a := hh a b c d (k 5) 4 (-378558)
  let d := hh d a b c (k 8) 11 (-2022574463)
  let c := hh c d a b (k 11) 16 1839030562
  let b := hh b c d a (k 14) 23 (-35309556)
  let a := hh a b c d (k 1) 4 (-1530992060)
  let d := hh d a b c (k 4) 11 1272893353
  let c := hh c d a b (k 7) 16 (-155497632)
  let b := hh b c d a (k 10) 23 (-1094730640)
  let a := hh a b c d (k 13) 4 681279174
  let d := hh d a b c (k 0) 11 (-358537222)
  let c := hh c d a b (k 3) 16 (-722521979)
  let b := hh b c d a (k 6) 23 76029189
  let a := hh a b c d (k 9) 4 (-640364487)
  let d := hh d a b c (k 12) 11 (-421815835)
  let c := hh c d a b (k 15) 16 530742520
  let b := hh b c d a (k 2) 23 (-995338651)
  let a := ii a b c d (k 0) 6 (-198630844)
  let d := ii d a b c (k 7) 10 1126891415
  let c := ii c d a b (k 14) 15 (-1416354905)
  let b := ii b c d a (k 5) 21 (-57434055)
  let a := ii a b c d (k 12) 6 1700485571
  let d := ii d a b c (k 3) 10 (-1894986606)
  let c := ii c d a b (k 10) 15 (-1051523)
  let b := ii b c d a (k 1) 21 (-2054922799)
  let a := ii a b c d (k 8) 6 1873313359
  let d := ii d a b c (k 15) 10 (-30611744)
  let c := ii c d a b (k 6) 15 (-1560198380)
  let b := ii b c d a (k 13) 21 1309151649
  let a := ii a b c d (k 4) 6 (-145523070)
  let d := ii d a b c (k 11) 10 (-1120210379)
  let c := ii c d a b (k 2) 15 718787259
  let b := ii b c d a (k 9) 21 (-343485551)
  [(x.getD 0 0 + a) % M32, (x.getD 1 0 + b) % M32,
   (x.getD 2 0 + c) % M32, (x.getD 3 0 + d) % M32]

/-- md5blk: pack a 64-byte chunk of character codes into 16 words.  The
source sums c0 + (c1 << 8) + (c2 << 16) + (c3 << 24) as a JS float; the
words only ever enter additions that are reduced modulo 2 ^ 32, so the
residue below is the faithful value. -/
def md5blk (cs : List Nat) : List Nat :=
  (List.range 16).map (fun j =>
    (cs.getD (4 * j) 0 + cs.getD (4 * j + 1) 0 * 256 +
     cs.getD (4 * j + 2) 0 * 65536 + cs.getD (4 * j + 3) 0 * 16777216) % M32)

/-- The md51 block loop: process full 64-code chunks, returning the state
and the remaining tail (the source's s.substring(i - 64) after the loop). -/
def md5loop (state : List Nat) (codes : List Nat) : List Nat × List Nat :=
  if _h : 64 ≤ codes.length then
    md5loop (md5cycle state (md5blk (codes.take 64))) (codes.drop 64)
  else
    (state, codes)
termination_by codes.length
decreasing_by simp only [List.length_drop]; omega

/-- tail[j] |= v with the unsigned residue, as in the tail-filling loop. -/
def orInto (ws : List Nat) (j v : Nat) : List Nat :=
  ws.set j (ws.getD j 0 ||| v % M32)

/-- Fill the 16-word tail block from the remaining character codes:
tail[i >> 2] |= s.charCodeAt(i) << ((i % 4) << 3). -/
def tailFill (codes : List Nat) : List Nat :=
  codes.enum.foldl
    (fun ws p => orInto ws (p.1 / 4) (p.2 <<< ((p.1 % 4) * 8)))
    (List.replicate 16 0)

/-- The initial md5 state [1732584193, -271733879, -1732584194, 271733878]. -/
def md5init : List Nat := [1732584193, t32 (-271733879), t32 (-1732584194), 271733878]

/-- md51: full digest state of a code sequence, with the source's padding:
the 0x80 byte, a state flush when more than 55 tail bytes remain, and the
bit length written into word 14. -/
def md51 (codes : List Nat) : List Nat :=
  let n := codes.length
  let p := md5loop md5init codes
  let tail := p.2
  let t1 := orInto (tailFill tail) (tail.length / 4) (128 <<< ((tail.length % 4) * 8))
  let p2 := if 55 < tail.length then (md5cycle p.1 t1, List.replicate 16 0)
            else (p.1, t1)
  let t3 := p2.2.set 14 ((n * 8) % M32)
  md5cycle p2.1 t3

/-- hex_chr of the source: the characters of 0123456789abcdef. -/
def hexChr : List Char := "0123456789abcdef".toList

/-- One nibble of rhex: hex_chr[m & 0x0F]. -/
def nibChr (m : Nat) : Char := hexChr.getD (m &&& 15) '0'

/-- rhex: one 32-bit word as 8 hex characters, little-endian byte order. -/
def rhex (n : Nat) : List Char :=
  [nibChr (n >>> 4), nibChr n, nibChr (n >>> 12), nibChr (n >>> 8),
   nibChr (n >>> 20), nibChr (n >>> 16), nibChr (n >>> 28), nibChr (n >>> 24)]

/-- hex: the state as a 32-character hex string. -/
def hexOfState (x : List Nat) : List Char := (x.map rhex).flatten

/-- md5 of a string, on character codes. -/
def md5 (s : List Char) : List Char := hexOfState (md51 (s.map Char.toNat))

/-- Lowercasing a string characterwise, modelling toLowerCase. -/
def lowerStr (s : List Char) : List Char := s.map Char.toLower

/-- toId of options.js: the prefix character x followed by the first 16
characters of md5 of the lowercased namespace. -/
def toId (ns : List Char) : List Char :=
  'x' :: (md5 (lowerStr ns)).take 16

/-! ## Engine configuration (content.js lines 198-227) -/

/-- The engine's module-level state: idMap and replaceMode. -/
structure EngineState where
  idMap : NsMap
  replaceMode : Bool
deriving DecidableEq

/-- The snapshot read from chrome.storage.local at startup; either key may
be absent. -/
structure StoredConfig where
  idMap : Option NsMap
  replaceMode : Option Bool
deriving DecidableEq

/-- The startup callback (content.js lines 198-204):
idMap = data.idMap || {} and replaceMode defaults to true when the stored
value is undefined, else is coerced with !!. -/
def initEngine (data : StoredConfig) : EngineState :=
  { idMap := data.idMap.getD []
    replaceMode := match data.replaceMode with
      | none => true
      | some b => b }

/-- One chrome.storage.onChanged event: for each key, none when the key is
absent from the event, some nv when it changed, where nv is the newValue
(none models an undefined / deleted newValue). -/
structure StorageChange where
  idMapNew : Option (Option NsMap)
  replaceModeNew : Option (Option Bool)
deriving DecidableEq

def localArea : List Char := "local".toList

/-- The onChanged listener (content.js lines 218-227): events outside the
local area are ignored; a changed idMap is replaced wholesale with
newValue || {}; a changed replaceMode becomes !!newValue; an absent field
leaves the prior value in effect. -/
def onStorageChanged (st : EngineState) (changes : StorageChange)
    (area : List Char) : EngineState :=
  if area = localArea then
    let st1 := match changes.idMapNew with
      | none => st
      | some nv => { st with idMap := nv.getD [] }
    match changes.replaceModeNew with
    | none => st1
    | some nv => { st1 with replaceMode := nv.getD false }
  else st

/-! ## Specification-side definitions

These follow the words of the specification (not the source) and serve as
the comparison side of the refinement claims. -/

/-- Spec side of claim C1: the Scanner's output should be every offset at
which the token grammar matches, in increasing order, paired with the 17
characters starting at that offset. -/
def specMatches (s : List Char) : List (Nat × List Char) :=
  ((List.range s.length).filter (posMatches s)).map
    (fun i => (i, (s.drop i).take 17))

/-- Spec side of claims C2 and C5: the characters of text outside the
matched spans, verbatim and in order, with emit applied to each matched
token standing in for its span. -/
def specSplice (text : List Char) (emit : List Char → List Char) :
    Nat → List (Nat × List Char) → List Char
  | last, [] => text.drop last
  | last, (idx, id) :: rest =>
    (text.drop last).take (idx - last) ++ emit id ++
    specSplice text emit (idx + id.length) rest

/-- The textual content a matched token turns into under the Rewriter. -/
def emitFor (m : NsMap) (replaceMode : Bool) (id : List Char) : List Char :=
  textContent (fragFor m replaceMode id)

/-- A well-placed match list for text: offsets at or after last, each span
of 17 characters lying inside text, each token equal to the characters at
its offset, and consecutive spans disjoint in order. -/
def ChainedFrom (text : List Char) : Nat → List (Nat × List Char) → Prop
  | _, [] => True
  | last, (i, tok) :: rest =>
    last ≤ i ∧ i + 17 ≤ text.length ∧ tok = (text.drop i).take 17 ∧
    ChainedFrom text (i + 17) rest

/-! ## Concrete data for the scenario parts of the claims -/

def demoTok : List Char := "xabc0000000000001".toList
def demoNs : List Char := "teams-prod".toList
def demoMap : NsMap := [(demoTok, demoNs)]
def demoText : List Char := "see xabc0000000000001 now".toList
def demoText2 : List Char := "see xabc0000000000002 now".toList
/-- A namespace that itself has token shape (a legal options.js line). -/
def tokNs : List Char := "x0123456789abcdef".toList
def tokNsMap : NsMap := [(demoTok, tokNs)]
/-- A well-shaped token embedded in a longer alphanumeric run. -/
def embeddedEx : List Char := "yx0123456789abcdef0".toList
def divTag : List Char := "DIV".toList

/-! ## Lemmas about the token grammar -/

theorem hexChar_wordChar {c : Char} (h : hexChar c = true) : wordChar c = true := by
  simp only [hexChar, wordChar, Bool.or_eq_true, Bool.and_eq_true,
    decide_eq_true_eq, beq_iff_eq] at h ⊢
  omega

theorem tokenAt_word_prev {c : Char} (h : wordChar c = true) (cs : List Char) :
    tokenAt (some c) cs = false := by
  simp [tokenAt, boundaryOk, h]

theorem drop_succ_of_drop {s : List Char} {i : Nat} {c : Char} {rest : List Char}
    (h : s.drop i = c :: rest) : s.drop (i + 1) = rest := by
  have h2 := List.drop_drop 1 i s
  rw [h] at h2
  simpa using h2.symm

theorem take_getLast_of_drop {s : List Char} {i : Nat} {c : Char} {rest : List Char}
    (h : s.drop i = c :: rest) : (s.take (i + 1)).getLast? = some c := by
  rw [List.take_add s i 1, h]
  simp [List.getLast?_concat]

/-- Inside a prefix on which p holds elementwise, every position holds an
element satisfying p. -/
theorem head_drop_of_take_all (p : Char → Bool) :
    ∀ (l : List Char) (mm n : Nat), (l.take mm).all p = true → n < mm →
      n < l.length → ∃ ch, (l.drop n).head? = some ch ∧ p ch = true := by
  intro l
  induction l with
  | nil => intro mm n _ _ h3; simp at h3
  | cons a t ih =>
    intro mm n hall hn hlen
    match mm, hn with
    | mm + 1, _ =>
      rw [List.take_succ_cons, List.all_cons, Bool.and_eq_true] at hall
      match n with
      | 0 => exact ⟨a, by simp, hall.1⟩
      | n + 1 =>
        simp only [List.length_cons] at hlen
        exact ih mm n hall.2 (by omega) (by omega)

theorem posMatches_bound {s : List Char} {i : Nat} (h : posMatches s i = true) :
    i + 17 ≤ s.length := by
  unfold posMatches tokenAt at h
  cases hd : s.drop i with
  | nil => rw [hd] at h; simp at h
  | cons c rest =>
    rw [hd] at h
    simp only [Bool.and_eq_true, decide_eq_true_eq] at h
    have hlen := congrArg List.length hd
    simp only [List.length_drop, List.length_cons] at hlen
    omega

/-- Positions strictly inside a match cannot themselves match: the
character before them is one of the token's word characters. -/
theorem posMatches_false_in_window {s : List Char} {i : Nat} {c : Char}
    {rest : List Char} {prev : Option Char}
    (hd : s.drop i = c :: rest) (ht : tokenAt prev (c :: rest) = true) :
    ∀ j, i + 1 ≤ j → j < i + 17 → posMatches s j = false := by
  intro j hj1 hj2
  unfold tokenAt at ht
  simp only [Bool.and_eq_true, decide_eq_true_eq, beq_iff_eq] at ht
  obtain ⟨-, ⟨⟨hcx, h16⟩, hhex⟩, -⟩ := ht
  obtain ⟨d, rfl⟩ : ∃ d, j = i + 1 + d := ⟨j - (i + 1), by omega⟩
  cases d with
  | zero =>
    have hlast : (s.take (i + 1)).getLast? = some c := take_getLast_of_drop hd
    unfold posMatches
    rw [hlast]
    exact tokenAt_word_prev (by rw [hcx]; decide) _
  | succ e =>
    have hd1 : s.drop (i + 1) = rest := drop_succ_of_drop hd
    obtain ⟨ch, hch, hchhex⟩ :=
      head_drop_of_take_all hexChar rest 16 e hhex (by omega) (by omega)
    have hde : s.drop (i + 1 + e) = rest.drop e := by
      have h2 := List.drop_drop e (i + 1) s
      rw [hd1] at h2
      exact h2.symm
    cases hrd : rest.drop e with
    | nil => rw [hrd] at hch; simp at hch
    | cons ch2 tl =>
      rw [hrd] at hch
      simp only [List.head?_cons, Option.some.injEq] at hch
      subst hch
      have hlast : (s.take (i + 1 + e + 1)).getLast? = some ch2 :=
        take_getLast_of_drop (by rw [hde, hrd])
      unfold posMatches
      rw [show i + 1 + (e + 1) = i + 1 + e + 1 from by omega, hlast]
      exact tokenAt_word_prev (hexChar_wordChar hchhex) _

/-- Closed form of the scan loop: starting at offset i (with k characters
still to skip after a match, and prev the character before offset i), the
loop returns every matching offset from i on, in order, paired with the 17
characters found there, provided no offset inside the skipped stretch
matches. -/
theorem scanGo_closed (s : List Char) :
    ∀ (cs : List Char) (k i : Nat) (prev : Option Char),
      s.drop i = cs →
      (s.take i).getLast? = prev →
      (∀ j, i ≤ j → j < i + k → posMatches s j = false) →
      scanGo k prev i cs =
        ((List.range' i (s.length - i)).filter (posMatches s)).map
          (fun j => (j, (s.drop j).take 17)) := by
  intro cs
  induction cs with
  | nil =>
    intro k i prev hd _ _
    have hlen : s.length - i = 0 := by
      have := congrArg List.length hd
      simp only [List.length_drop, List.length_nil] at this
      omega
    rw [hlen]
    cases k <;> simp [scanGo]
  | cons c rest ih =>
    intro k i prev hd hp hwin
    have hlen : s.length - i = rest.length + 1 := by
      have := congrArg List.length hd
      simpa only [List.length_drop, List.length_cons] using this
    have hd1 : s.drop (i + 1) = rest := drop_succ_of_drop hd
    have hp1 : (s.take (i + 1)).getLast? = some c := take_getLast_of_drop hd
    have hlen1 : s.length - (i + 1) = rest.length := by omega
    rw [hlen, List.range'_succ]
    match k with
    | k + 1 =>
      have hpm : posMatches s i = false := hwin i (le_refl i) (by omega)
      rw [show scanGo (k + 1) prev i (c :: rest) =
            scanGo k (some c) (i + 1) rest from rfl]
      rw [List.filter_cons_of_neg (by simp [hpm])]
      rw [ih k (i + 1) (some c) hd1 hp1
            (fun j h1 h2 => hwin j (by omega) (by omega)), hlen1]
    | 0 =>
      by_cases htok : tokenAt prev (c :: rest) = true
      · have hpm : posMatches s i = true := by
          unfold posMatches; rw [hd, hp]; exact htok
        rw [show scanGo 0 prev i (c :: rest) =
              if tokenAt prev (c :: rest) then
                (i, c :: rest.take 16) :: scanGo 16 (some c) (i + 1) rest
              else scanGo 0 (some c) (i + 1) rest from rfl]
        rw [if_pos htok]
        rw [List.filter_cons_of_pos (by simp [hpm]), List.map_cons]
        have htokeq : (s.drop i).take 17 = c :: rest.take 16 := by
          rw [hd]; rfl
        rw [htokeq]
        have hwin' := posMatches_false_in_window hd htok
        rw [ih 16 (i + 1) (some c) hd1 hp1
              (fun j h1 h2 => hwin' j h1 (by omega)), hlen1]
      · have hpm : posMatches s i = false := by
          unfold posMatches; rw [hd, hp]; simpa using htok
        rw [show scanGo 0 prev i (c :: rest) =
              if tokenAt prev (c :: rest) then
                (i, c :: rest.take 16) :: scanGo 16 (some c) (i + 1) rest
              else scanGo 0 (some c) (i + 1) rest from rfl]
        rw [if_neg (by simpa using htok)]
        rw [List.filter_cons_of_neg (by simp [hpm])]
        rw [ih 0 (i + 1) (some c) hd1 hp1 (by intro j h1 h2; omega), hlen1]

/-- The Scanner equals its specification-side characterization. -/
theorem scan_closed (s : List Char) : scan s = specMatches s := by
  unfold scan specMatches
  have h := scanGo_closed s s 0 0 none (by simp) (by simp)
    (by intro j h1 h2; omega)
  simpa [List.range_eq_range'] using h

theorem mem_specMatches {s : List Char} {i : Nat} {tok : List Char} :
    (i, tok) ∈ specMatches s ↔
      (posMatches s i = true ∧ tok = (s.drop i).take 17) := by
  unfold specMatches
  simp only [List.mem_map, List.mem_filter, List.mem_range, Prod.mk.injEq]
  constructor
  · rintro ⟨j, ⟨-, hp⟩, rfl, rfl⟩
    exact ⟨hp, rfl⟩
  · rintro ⟨hp, rfl⟩
    exact ⟨i, ⟨by have := posMatches_bound hp; omega, hp⟩, rfl, rfl⟩

theorem chainedFrom_mono {text : List Char} :
    ∀ {ms : List (Nat × List Char)} {l l' : Nat}, l ≤ l' →
      ChainedFrom text l' ms → ChainedFrom text l ms := by
  intro ms
  cases ms with
  | nil => intro l l' _ h; exact h
  | cons p rest =>
    intro l l' hle h
    obtain ⟨i, tok⟩ := p
    obtain ⟨h1, h2, h3, h4⟩ := h
    exact ⟨by omega, h2, h3, h4⟩

theorem chainedFrom_le {text : List Char} :
    ∀ {ms : List (Nat × List Char)} {l : Nat}, ChainedFrom text l ms →
      ∀ p ∈ ms, l ≤ p.1 := by
  intro ms
  induction ms with
  | nil => intro l _ p hp; simp at hp
  | cons q rest ih =>
    intro l h p hp
    obtain ⟨i, tok⟩ := q
    obtain ⟨h1, h2, h3, h4⟩ := h
    rcases List.mem_cons.mp hp with hcase | hcase
    · rw [hcase]; exact h1
    · have := ih h4 p hcase
      omega

theorem chainedFrom_pairwise {text : List Char} :
    ∀ {ms : List (Nat × List Char)} {l : Nat}, ChainedFrom text l ms →
      ms.Pairwise (fun p q => p.1 + 17 ≤ q.1) := by
  intro ms
  induction ms with
  | nil => intro l _; exact List.Pairwise.nil
  | cons q rest ih =>
    intro l h
    obtain ⟨i, tok⟩ := q
    obtain ⟨h1, h2, h3, h4⟩ := h
    exact List.Pairwise.cons (fun p hp => chainedFrom_le h4 p hp) (ih h4)

/-- The scan loop always produces a well-placed match list whose first
offset is at least i + k. -/
theorem scanGo_chained (s : List Char) :
    ∀ (cs : List Char) (k i : Nat) (prev : Option Char), s.drop i = cs →
      ChainedFrom s (i + k) (scanGo k prev i cs) := by
  intro cs
  induction cs with
  | nil => intro k i prev _; cases k <;> simp [scanGo, ChainedFrom]
  | cons c rest ih =>
    intro k i prev hd
    have hd1 : s.drop (i + 1) = rest := drop_succ_of_drop hd
    match k with
    | k + 1 =>
      have h := ih k (i + 1) (some c) hd1
      rw [show scanGo (k + 1) prev i (c :: rest) =
            scanGo k (some c) (i + 1) rest from rfl]
      exact chainedFrom_mono (show i + (k + 1) ≤ i + 1 + k by omega) h
    | 0 =>
      rw [show scanGo 0 prev i (c :: rest) =
            if tokenAt prev (c :: rest) then
              (i, c :: rest.take 16) :: scanGo 16 (some c) (i + 1) rest
            else scanGo 0 (some c) (i + 1) rest from rfl]
      by_cases htok : tokenAt prev (c :: rest) = true
      · rw [if_pos htok]
        have h16 : 16 ≤ rest.length := by
          unfold tokenAt at htok
          simp only [Bool.and_eq_true, decide_eq_true_eq] at htok
          exact htok.2.1.1.2
        have hlen : s.length - i = rest.length + 1 := by
          have := congrArg List.length hd
          simpa only [List.length_drop, List.length_cons] using this
        have hb : i + 17 ≤ s.length := by omega
        refine ⟨le_refl i, hb, by rw [hd]; rfl, ?_⟩
        have h := ih 16 (i + 1) (some c) hd1
        exact chainedFrom_mono (show i + 17 ≤ i + 1 + 16 by omega) h
      · rw [if_neg htok]
        have h := ih 0 (i + 1) (some c) hd1
        exact chainedFrom_mono (show i + 0 ≤ i + 1 + 0 by omega) h

theorem scan_chained (s : List Char) : ChainedFrom s 0 (scan s) := by
  simpa using scanGo_chained s s 0 0 none (by simp)

/-- A string without the prefix character has no matches at all. -/
theorem scanGo_no_x :
    ∀ (cs : List Char) (k i : Nat) (prev : Option Char), 'x' ∉ cs →
      scanGo k prev i cs = [] := by
  intro cs
  induction cs with
  | nil => intro k i prev _; cases k <;> simp [scanGo]
  | cons c rest ih =>
    intro k i prev hx
    have hc : ¬(c = 'x') := fun h => hx (h ▸ List.mem_cons_self c rest)
    have hr : 'x' ∉ rest := fun h => hx (List.mem_cons_of_mem c h)
    match k with
    | k + 1 => exact ih k (i + 1) (some c) hr
    | 0 =>
      have htok : tokenAt prev (c :: rest) = false := by
        unfold tokenAt
        simp [beq_eq_false_iff_ne.mpr hc]
      rw [show scanGo 0 prev i (c :: rest) =
            if tokenAt prev (c :: rest) then
              (i, c :: rest.take 16) :: scanGo 16 (some c) (i + 1) rest
            else scanGo 0 (some c) (i + 1) rest from rfl]
      rw [htok]
      simp only [Bool.false_eq_true, if_false]
      exact ih 0 (i + 1) (some c) hr

theorem scan_no_x {s : List Char} (h : 'x' ∉ s) : scan s = [] :=
  scanGo_no_x s 0 0 none h

/-- Shape of any position where the grammar matches: the 17 characters
there are the prefix character followed by 16 hex digits. -/
theorem posMatches_shape {s : List Char} {i : Nat} (h : posMatches s i = true) :
    ((s.drop i).take 17).length = 17 ∧
    ((s.drop i).take 17).head? = some 'x' ∧
    (((s.drop i).take 17).drop 1).all hexChar = true := by
  have hb := posMatches_bound h
  unfold posMatches tokenAt at h
  cases hd : s.drop i with
  | nil => rw [hd] at h; simp at h
  | cons c rest =>
    rw [hd] at h
    simp only [Bool.and_eq_true, decide_eq_true_eq, beq_iff_eq] at h
    obtain ⟨-, ⟨⟨hcx, h16⟩, hhex⟩, -⟩ := h
    subst hcx
    refine ⟨?_, by simp, by simpa using hhex⟩
    simp only [List.length_take, List.length_cons]
    have := congrArg List.length hd
    simp only [List.length_drop, List.length_cons] at this
    omega

/-! ## Lemmas about the Rewriter -/

theorem textContentList_append (a b : List DomNode) :
    textContentList (a ++ b) = textContentList a ++ textContentList b := by
  induction a with
  | nil => simp [textContentList]
  | cons n t ih => simp [textContentList, ih]

/-- The fragment sequence's textual content is the spec-side splice of the
original text with each matched token's emission. -/
theorem rewriteGo_textContent (m : NsMap) (b : Bool) (text : List Char) :
    ∀ (ms : List (Nat × List Char)) (last : Nat),
      textContentList (rewriteGo m b text last ms) =
        specSplice text (emitFor m b) last ms := by
  intro ms
  induction ms with
  | nil => intro last; simp [rewriteGo, specSplice, textContentList, textContent]
  | cons p rest ih =>
    intro last
    obtain ⟨idx, id⟩ := p
    simp [rewriteGo, specSplice, textContentList, textContent, emitFor, ih]

theorem specSplice_congr (text : List Char) (emit emit2 : List Char → List Char) :
    ∀ (ms : List (Nat × List Char)) (last : Nat),
      (∀ p ∈ ms, emit p.2 = emit2 p.2) →
      specSplice text emit last ms = specSplice text emit2 last ms := by
  intro ms
  induction ms with
  | nil => intro last _; rfl
  | cons p rest ih =>
    intro last h
    obtain ⟨idx, id⟩ := p
    have hid := h (idx, id) (List.mem_cons_self _ _)
    simp only [specSplice, hid]
    rw [ih (idx + id.length) (fun q hq => h q (List.mem_cons_of_mem _ hq))]

/-- Splicing every matched span's own token back in reproduces the text:
the characters outside matched spans are exactly the original ones. -/
theorem specSplice_id (text : List Char) :
    ∀ (ms : List (Nat × List Char)) (last : Nat), ChainedFrom text last ms →
      specSplice text (fun id => id) last ms = text.drop last := by
  intro ms
  induction ms with
  | nil => intro last _; rfl
  | cons p rest ih =>
    intro last hch
    obtain ⟨i, tok⟩ := p
    obtain ⟨h1, h2, h3, h4⟩ := hch
    have hlen : tok.length = 17 := by
      rw [h3]
      simp only [List.length_take, List.length_drop]
      omega
    simp only [specSplice, hlen]
    rw [ih (i + 17) h4]
    have e1 : text.drop last =
        (text.drop last).take (i - last) ++ (text.drop last).drop (i - last) :=
      (List.take_append_drop _ _).symm
    have e2 : (text.drop last).drop (i - last) = text.drop i := by
      rw [List.drop_drop]
      congr 1
      omega
    have e3 : text.drop i = (text.drop i).take 17 ++ (text.drop i).drop 17 :=
      (List.take_append_drop _ _).symm
    have e4 : (text.drop i).drop 17 = text.drop (i + 17) := by
      rw [List.drop_drop]
    conv_rhs => rw [e1, e2, e3, e4]
    rw [h3, List.append_assoc]

theorem resolveNs_nil (id : List Char) : resolveNs [] id = none := rfl

theorem emitFor_unknown {m : NsMap} {b : Bool} {id : List Char}
    (h : resolveNs m id = none) : emitFor m b id = id := by
  simp [emitFor, fragFor, h, textContent]

/-- When every matched token is unresolved, the fragment sequence's text is
the original text, unchanged. -/
theorem rewrite_unknown_id (m : NsMap) (b : Bool) (text : List Char)
    (h : ∀ p ∈ scan text, resolveNs m p.2 = none) :
    textContentList (rewriteGo m b text 0 (scan text)) = text := by
  rw [rewriteGo_textContent]
  rw [specSplice_congr text (emitFor m b) (fun id => id) (scan text) 0
        (fun p hp => emitFor_unknown (h p hp))]
  simpa using specSplice_id text (scan text) 0 (scan_chained text)

theorem rewrite_empty_map (b : Bool) (text : List Char) :
    textContentList (rewriteGo [] b text 0 (scan text)) = text :=
  rewrite_unknown_id [] b text (fun p _ => resolveNs_nil p.2)

/-! ## Lemmas about the Tree Walker -/

/-- A walk over the tree with the empty mapping leaves all textual content
unchanged (every matched token is unknown and re-emitted verbatim). -/
theorem walk_empty_map_aux : ∀ (k : Nat),
    (∀ (n : DomNode) (b : Bool), sizeOf n ≤ k →
        textContentList (walkNode [] b n) = textContent n) ∧
    (∀ (l : List DomNode) (b : Bool), sizeOf l ≤ k →
        textContentList (walkChildren [] b l) = textContentList l) := by
  intro k
  induction k with
  | zero =>
    constructor
    · intro n b hn; exfalso; cases n <;> simp at hn
    · intro l b hl; exfalso; cases l <;> simp at hl
  | succ k ih =>
    constructor
    · intro n b hn
      match n with
      | DomNode.text s =>
        rw [show walkNode [] b (DomNode.text s) =
              match annotateOrReplaceText [] b s with
              | none => [DomNode.text s]
              | some frags => frags from by rw [walkNode]]
        cases hA : annotateOrReplaceText [] b s with
        | none => simp [textContentList, textContent]
        | some frags =>
          unfold annotateOrReplaceText at hA
          by_cases hsc : (scan s).isEmpty
          · simp [hsc] at hA
          · simp only [hsc, if_false, Option.some.injEq, Bool.false_eq_true] at hA
            rw [← hA]
            simpa [textContent] using rewrite_empty_map b s
      | DomNode.element tag attrs children =>
        by_cases htag : tag = inputTag ∨ tag = textareaTag
        · simp [walkNode, htag, textContentList, textContent]
        · have hsz : sizeOf children ≤ k := by
            simp only [DomNode.element.sizeOf_spec] at hn
            omega
          simp only [walkNode, htag, if_false]
          simp [textContentList, textContent, ih.2 children b hsz]
      | DomNode.other => simp [walkNode, textContentList, textContent]
    · intro l b hl
      match l with
      | [] => simp [walkChildren, textContentList]
      | DomNode.text s :: rest =>
        have hsz : sizeOf rest ≤ k := by
          simp only [List.cons.sizeOf_spec] at hl
          omega
        rw [show walkChildren [] b (DomNode.text s :: rest) =
              match annotateOrReplaceText [] b s with
              | none => DomNode.text s :: walkChildren [] b rest
              | some frags => frags ++ rest from by rw [walkChildren]]
        cases hA : annotateOrReplaceText [] b s with
        | none =>
          simp [textContentList, textContent, ih.2 rest b hsz]
        | some frags =>
          unfold annotateOrReplaceText at hA
          by_cases hsc : (scan s).isEmpty
          · simp [hsc] at hA
          · simp only [hsc, if_false, Option.some.injEq, Bool.false_eq_true] at hA
            rw [textContentList_append, ← hA]
            rw [rewrite_empty_map b s]
            simp [textContentList, textContent]
      | DomNode.element tag attrs children :: rest =>
        have hszn : sizeOf (DomNode.element tag attrs children) ≤ k := by
          simp only [List.cons.sizeOf_spec] at hl
          omega
        have hszr : sizeOf rest ≤ k := by
          simp only [List.cons.sizeOf_spec] at hl
          omega
        rw [show walkChildren [] b (DomNode.element tag attrs children :: rest) =
              walkNode [] b (DomNode.element tag attrs children) ++
              walkChildren [] b rest from by rw [walkChildren]]
        rw [textContentList_append,
            ih.1 (DomNode.element tag attrs children) b hszn,
            ih.2 rest b hszr]
        simp [textContentList]
      | DomNode.other :: rest =>
        have hsz : sizeOf rest ≤ k := by
          simp only [List.cons.sizeOf_spec] at hl
          omega
        rw [show walkChildren [] b (DomNode.other :: rest) =
              DomNode.other :: walkChildren [] b rest from by rw [walkChildren]]
        simp [textContentList, textContent, ih.2 rest b hsz]

theorem walkNode_empty_map (b : Bool) (n : DomNode) :
    textContentList (walkNode [] b n) = textContent n :=
  (walk_empty_map_aux (sizeOf n)).1 n b (le_refl _)

theorem walkChildren_empty_map (b : Bool) (l : List DomNode) :
    textContentList (walkChildren [] b l) = textContentList l :=
  (walk_empty_map_aux (sizeOf l)).2 l b (le_refl _)

/-! ## Lemmas about the digest and ID derivation -/

theorem md51_length (codes : List Nat) : (md51 codes).length = 4 := rfl

theorem nibChr_hex (m : Nat) : hexChar (nibChr m) = true := by
  unfold nibChr
  have h16 : m &&& 15 < 16 :=
    Nat.lt_of_le_of_lt Nat.and_le_right (by norm_num)
  generalize (m &&& 15) = j at h16
  interval_cases j <;> decide

theorem mem_rhex_hex {w : Nat} {c : Char} (h : c ∈ rhex w) :
    hexChar c = true := by
  unfold rhex at h
  simp only [List.mem_cons, List.not_mem_nil, or_false] at h
  rcases h with h | h | h | h | h | h | h | h <;> rw [h] <;> exact nibChr_hex _

theorem mem_hexOfState_hex {x : List Nat} {c : Char}
    (h : c ∈ hexOfState x) : hexChar c = true := by
  unfold hexOfState at h
  rw [List.mem_flatten] at h
  obtain ⟨l, hl, hc⟩ := h
  rw [List.mem_map] at hl
  obtain ⟨w, -, rfl⟩ := hl
  exact mem_rhex_hex hc

theorem hexOfState_length {x : List Nat} (h : x.length = 4) :
    (hexOfState x).length = 32 := by
  match x, h with
  | [a, b, c, d], _ => rfl

theorem md5_length (s : List Char) : (md5 s).length = 32 :=
  hexOfState_length (md51_length _)

theorem mem_md5_hex {s : List Char} {c : Char} (h : c ∈ md5 s) :
    hexChar c = true :=
  mem_hexOfState_hex h

/-! ## Claim theorems -/

/-- Claim C1: for every input string the Token Scanner returns exactly the
ordered-by-start-offset, non-overlapping occurrences of the token grammar
(the prefix character x, then 16 characters from 0-9a-f, with neither
neighbouring character a word character); a well-shaped token embedded in
a longer alphanumeric run is not reported, and a string with no occurrence
yields the empty sequence. -/
theorem claim_C1_scanner :
    (∀ (s : List Char) (i : Nat) (tok : List Char),
        (i, tok) ∈ scan s ↔
          (posMatches s i = true ∧ tok = (s.drop i).take 17)) ∧
    (∀ s : List Char, (scan s).Pairwise (fun p q => p.1 + 17 ≤ q.1)) ∧
    (∀ (s : List Char) (p : Nat × List Char), p ∈ scan s →
        p.2.length = 17 ∧ p.2.head? = some 'x' ∧
        (p.2.drop 1).all hexChar = true) ∧
    scan embeddedEx = [] ∧ scan ("no ids here".toList) = [] := by
  refine ⟨?_, ?_, ?_, by decide, by decide⟩
  · intro s i tok
    rw [scan_closed]
    exact mem_specMatches
  · intro s
    exact chainedFrom_pairwise (scan_chained s)
  · intro s p hp
    obtain ⟨i, tok⟩ := p
    rw [scan_closed] at hp
    obtain ⟨hpm, rfl⟩ := mem_specMatches.mp hp
    exact posMatches_shape hpm

/-- Witness for C1 at the scenario input: the reported match at offset 4
has the required token shape. -/
theorem claim_C1_scanner_witness :
    ((4, demoTok) ∈ scan demoText) ∧
    (demoTok.length = 17 ∧ demoTok.head? = some 'x' ∧
     (demoTok.drop 1).all hexChar = true) :=
  ⟨by decide, claim_C1_scanner.2.2.1 demoText (4, demoTok) (by decide)⟩

/-- Claim C2: for every text span, the Scanner's match sequence on it,
every Mapping and every Mode, the Rewriter's fragments reconstruct the
original text: their concatenated textual content is the original
characters outside matched spans with each span's emission interleaved,
and when each span re-emits its own token the whole original text is
recovered character for character. -/
theorem claim_C2_reconstruction (m : NsMap) (b : Bool) (text : List Char) :
    textContentList (rewriteGo m b text 0 (scan text)) =
      specSplice text (emitFor m b) 0 (scan text) ∧
    specSplice text (fun id => id) 0 (scan text) = text :=
  ⟨rewriteGo_textContent m b text (scan text) 0,
   by simpa using specSplice_id text (scan text) 0 (scan_chained text)⟩

/-- Claim C3: a matched token that is a key of the Mapping is, in
Translate mode, rewritten to a single fragment whose visible text is the
resolved display name and which keeps the original token in its title
attribute; on the scenario mapping and input the rendered text is
see teams-prod now, with the token kept as metadata. -/
theorem claim_C3_translate :
    (∀ (m : NsMap) (id ns : List Char), m.lookup id = some ns → ns ≠ [] →
        fragFor m true id =
          DomNode.element abbrTag [(titleAttr, id)] [DomNode.text ns] ∧
        textContent (fragFor m true id) = ns) ∧
    textContentList (rewriteGo demoMap true demoText 0 (scan demoText)) =
      "see teams-prod now".toList ∧
    fragFor demoMap true demoTok =
      DomNode.element abbrTag [(titleAttr, demoTok)] [DomNode.text demoNs] := by
  have hgen : ∀ (m : NsMap) (id ns : List Char),
      m.lookup id = some ns → ns ≠ [] →
      fragFor m true id =
        DomNode.element abbrTag [(titleAttr, id)] [DomNode.text ns] := by
    intro m id ns hl hne
    simp [fragFor, resolveNs, hl, hne]
  refine ⟨fun m id ns hl hne => ⟨hgen m id ns hl hne, ?_⟩, ?_, rfl⟩
  · rw [hgen m id ns hl hne]
    simp [textContent, textContentList]
  · have hscan : scan demoText = [(4, demoTok)] := by decide
    have hfrag : fragFor demoMap true demoTok =
        DomNode.element abbrTag [(titleAttr, demoTok)] [DomNode.text demoNs] := rfl
    rw [hscan]
    simp only [rewriteGo, hfrag, textContentList, textContent]
    decide

/-- Witness for C3 at the scenario mapping. -/
theorem claim_C3_translate_witness :
    (demoMap.lookup demoTok = some demoNs ∧ demoNs ≠ []) ∧
    textContent (fragFor demoMap true demoTok) = demoNs :=
  ⟨⟨by decide, by decide⟩,
   (claim_C3_translate.1 demoMap demoTok demoNs (by decide) (by decide)).2⟩

/-- Claim C4: a matched token that is a key of the Mapping is, in
Annotate mode, rewritten to a fragment showing the original token followed
by the literal suffix of two spaces, the namespace marker and the resolved
name in parentheses; on the scenario mapping and input the rendered text
keeps the token and appends the annotation. -/
theorem claim_C4_annotate :
    (∀ (m : NsMap) (id ns : List Char), m.lookup id = some ns → ns ≠ [] →
        fragFor m false id =
          DomNode.element spanTag [(annMarkAttr, oneStr)]
            [DomNode.element strongTag [] [DomNode.text id],
             DomNode.element spanTag [] [DomNode.text (annSuffix ns)]] ∧
        textContent (fragFor m false id) = id ++ annSuffix ns) ∧
    annSuffix demoNs = "  (namespace: teams-prod)".toList ∧
    textContentList (rewriteGo demoMap false demoText 0 (scan demoText)) =
      "see xabc0000000000001  (namespace: teams-prod) now".toList := by
  have hgen : ∀ (m : NsMap) (id ns : List Char),
      m.lookup id = some ns → ns ≠ [] →
      fragFor m false id =
        DomNode.element spanTag [(annMarkAttr, oneStr)]
          [DomNode.element strongTag [] [DomNode.text id],
           DomNode.element spanTag [] [DomNode.text (annSuffix ns)]] := by
    intro m id ns hl hne
    simp [fragFor, resolveNs, hl, hne]
  refine ⟨fun m id ns hl hne => ⟨hgen m id ns hl hne, ?_⟩, by decide, ?_⟩
  · rw [hgen m id ns hl hne]
    simp [textContent, textContentList]
  · have hscan : scan demoText = [(4, demoTok)] := by decide
    have hfrag : fragFor demoMap false demoTok =
        DomNode.element spanTag [(annMarkAttr, oneStr)]
          [DomNode.element strongTag [] [DomNode.text demoTok],
           DomNode.element spanTag [] [DomNode.text (annSuffix demoNs)]] := rfl
    rw [hscan]
    simp only [rewriteGo, hfrag, textContentList, textContent]
    decide

/-- Witness for C4 at the scenario mapping. -/
theorem claim_C4_annotate_witness :
    (demoMap.lookup demoTok = some demoNs ∧ demoNs ≠ []) ∧
    textContent (fragFor demoMap false demoTok) = demoTok ++ annSuffix demoNs :=
  ⟨⟨by decide, by decide⟩,
   (claim_C4_annotate.1 demoMap demoTok demoNs (by decide) (by decide)).2⟩

/-- Claim C5: a matched token that is not resolved by the Mapping is
emitted verbatim as a plain text fragment under both modes, and a span
whose matches are all unresolved comes out textually identical to the
input; this is a normal outcome of the total rewrite function. -/
theorem claim_C5_unknown (m : NsMap) (b : Bool) (text : List Char)
    (h : ∀ p ∈ scan text, resolveNs m p.2 = none) :
    (∀ p ∈ scan text, fragFor m b p.2 = DomNode.text p.2) ∧
    textContentList (rewriteGo m b text 0 (scan text)) = text := by
  refine ⟨fun p hp => ?_, rewrite_unknown_id m b text h⟩
  simp [fragFor, h p hp]

/-- Witness for C5: the unmapped scenario token passes through unchanged
in Translate mode. -/
theorem claim_C5_unknown_witness :
    (∀ p ∈ scan demoText2, resolveNs demoMap p.2 = none) ∧
    textContentList (rewriteGo demoMap true demoText2 0 (scan demoText2)) =
      demoText2 :=
  ⟨by decide, (claim_C5_unknown demoMap true demoText2 (by decide)).2⟩

/-- Counterexample to claim C6 as stated: in Annotate mode the produced
fragment keeps the token verbatim followed by a non-word character, so
scanning its textual content finds the token again; and in Translate mode
a display name that itself has token shape (a legal options page line)
also re-matches.  The claimed zero-match property fails in both cases. -/
theorem claim_C6_counterexample :
    scan (textContent (fragFor demoMap false demoTok)) = [(0, demoTok)] ∧
    scan (textContent (fragFor tokNsMap true demoTok)) = [(0, tokNs)] := by
  constructor
  · have hfrag : fragFor demoMap false demoTok =
        DomNode.element spanTag [(annMarkAttr, oneStr)]
          [DomNode.element strongTag [] [DomNode.text demoTok],
           DomNode.element spanTag [] [DomNode.text (annSuffix demoNs)]] := rfl
    rw [hfrag]
    simp only [textContent, textContentList]
    decide
  · have hfrag : fragFor tokNsMap true demoTok =
        DomNode.element abbrTag [(titleAttr, demoTok)] [DomNode.text tokNs] := rfl
    rw [hfrag]
    simp only [textContent, textContentList]
    decide

/-- Claim C6 amended: only the Translate-mode fragment can be scan-free,
and it is exactly when the resolved display name contains no occurrence of
the prefix character: the fragment's textual content is the display name
itself, and scanning it then finds zero further matches. -/
theorem claim_C6_amended (m : NsMap) (id ns : List Char)
    (hl : m.lookup id = some ns) (hne : ns ≠ []) (hx : 'x' ∉ ns) :
    textContent (fragFor m true id) = ns ∧
    scan (textContent (fragFor m true id)) = [] := by
  have hfrag : fragFor m true id =
      DomNode.element abbrTag [(titleAttr, id)] [DomNode.text ns] := by
    simp [fragFor, resolveNs, hl, hne]
  have htc : textContent (fragFor m true id) = ns := by
    rw [hfrag]
    simp [textContent, textContentList]
  exact ⟨htc, by rw [htc]; exact scan_no_x hx⟩

/-- Witness for the amended C6 at the scenario mapping. -/
theorem claim_C6_amended_witness :
    (demoMap.lookup demoTok = some demoNs ∧ demoNs ≠ [] ∧ 'x' ∉ demoNs) ∧
    scan (textContent (fragFor demoMap true demoTok)) = [] :=
  ⟨⟨by decide, by decide, by decide⟩,
   (claim_C6_amended demoMap demoTok demoNs (by decide) (by decide)
      (by decide)).2⟩

/-- Claim C7: ID derivation is the pure function prepending the prefix
character x to the first 16 characters of the digest of the lowercased
name; it is total, yields a 17-character token whose last 16 characters
are lowercase hex drawn from the digest output, and names equal after
lowercasing derive equal tokens. -/
theorem claim_C7_derivation :
    (∀ ns : List Char, toId ns = 'x' :: (md5 (lowerStr ns)).take 16) ∧
    (∀ ns : List Char, (toId ns).length = 17) ∧
    (∀ ns : List Char, (toId ns).drop 1 = (md5 (lowerStr ns)).take 16 ∧
        ∀ c ∈ (toId ns).drop 1, hexChar c = true) ∧
    (∀ n1 n2 : List Char, lowerStr n1 = lowerStr n2 → toId n1 = toId n2) := by
  refine ⟨fun ns => rfl, fun ns => ?_, fun ns => ⟨rfl, fun c hc => ?_⟩,
          fun n1 n2 h => ?_⟩
  · simp only [toId, List.length_cons, List.length_take, md5_length]
    decide
  · have hmem : c ∈ md5 (lowerStr ns) :=
      List.take_subset 16 _ (by simpa [toId] using hc)
    exact mem_md5_hex hmem
  · unfold toId
    rw [h]

/-- Witness for C7: case-insensitively equal names derive the same token. -/
theorem claim_C7_derivation_witness :
    lowerStr "Teams-Prod".toList = lowerStr "teams-prod".toList ∧
    toId "Teams-Prod".toList = toId "teams-prod".toList :=
  ⟨by decide,
   claim_C7_derivation.2.2.2 "Teams-Prod".toList "teams-prod".toList
     (by decide)⟩

/-- Claim C8 evaluated at a failing input: the walk loop reads nextSibling
of a text child it has just replaced; the replaced child is detached, so
iteration stops, and the second text child here — also holding a known
token — is never visited and stays unrewritten, against the claim that all
children of a non-editable element are visited.  The editable-node skip
itself behaves as claimed: INPUT and TEXTAREA subtrees are untouched. -/
theorem claim_C8_walker :
    walkNode demoMap true
        (DomNode.element divTag []
          [DomNode.text demoText, DomNode.text demoText]) =
      [DomNode.element divTag []
        [DomNode.text "see ".toList,
         DomNode.element abbrTag [(titleAttr, demoTok)] [DomNode.text demoNs],
         DomNode.text " now".toList,
         DomNode.text demoText]] ∧
    (∀ (m : NsMap) (b : Bool) (attrs : List (List Char × List Char))
        (children : List DomNode),
        walkNode m b (DomNode.element inputTag attrs children) =
          [DomNode.element inputTag attrs children] ∧
        walkNode m b (DomNode.element textareaTag attrs children) =
          [DomNode.element textareaTag attrs children]) := by
  constructor
  · have hne : ¬(divTag = inputTag ∨ divTag = textareaTag) := by decide
    have hA : annotateOrReplaceText demoMap true demoText =
        some [DomNode.text "see ".toList,
              DomNode.element abbrTag [(titleAttr, demoTok)] [DomNode.text demoNs],
              DomNode.text " now".toList] := rfl
    have hwc : walkChildren demoMap true
        [DomNode.text demoText, DomNode.text demoText] =
        [DomNode.text "see ".toList,
         DomNode.element abbrTag [(titleAttr, demoTok)] [DomNode.text demoNs],
         DomNode.text " now".toList,
         DomNode.text demoText] := by
      rw [show walkChildren demoMap true
            [DomNode.text demoText, DomNode.text demoText] =
            match annotateOrReplaceText demoMap true demoText with
            | none => DomNode.text demoText ::
                walkChildren demoMap true [DomNode.text demoText]
            | some frags => frags ++ [DomNode.text demoText]
          from by rw [walkChildren]]
      rw [hA]
      rfl
    simp only [walkNode]
    rw [if_neg hne, hwc]
  · intro m b attrs children
    constructor <;> simp [walkNode]

/-- Claim C9: configuration updates are partial and non-destructive — an
absent field leaves the prior value in effect and a present field replaces
the value wholesale; the listener is a total function of the event. -/
theorem claim_C9_partial_updates (st : EngineState) (ch : StorageChange) :
    (ch.idMapNew = none →
        (onStorageChanged st ch localArea).idMap = st.idMap) ∧
    (∀ mm : NsMap, ch.idMapNew = some (some mm) →
        (onStorageChanged st ch localArea).idMap = mm) ∧
    (ch.replaceModeNew = none →
        (onStorageChanged st ch localArea).replaceMode = st.replaceMode) ∧
    (∀ bb : Bool, ch.replaceModeNew = some (some bb) →
        (onStorageChanged st ch localArea).replaceMode = bb) := by
  obtain ⟨imn, rmn⟩ := ch
  refine ⟨fun h => ?_, fun mm h => ?_, fun h => ?_, fun bb h => ?_⟩ <;>
    simp only at h <;> subst h <;>
    first
      | cases rmn <;> simp [onStorageChanged]
      | cases imn <;> simp [onStorageChanged]

/-- Witness for C9: one update that carries only a new mapping replaces
the mapping and leaves the mode untouched. -/
theorem claim_C9_partial_updates_witness :
    ((⟨some (some demoMap), none⟩ : StorageChange).idMapNew =
        some (some demoMap)) ∧
    (onStorageChanged ⟨[], true⟩ ⟨some (some demoMap), none⟩ localArea).idMap
      = demoMap ∧
    (onStorageChanged ⟨[], true⟩ ⟨some (some demoMap), none⟩
        localArea).replaceMode = true :=
  ⟨rfl,
   (claim_C9_partial_updates ⟨[], true⟩ ⟨some (some demoMap), none⟩).2.1
     demoMap rfl,
   (claim_C9_partial_updates ⟨[], true⟩ ⟨some (some demoMap), none⟩).2.2.1
     rfl⟩

/-- Claim C10: with no stored mode the engine starts in Translate mode,
with no stored mapping it starts with the empty Mapping, and under the
empty Mapping the initial full-tree pass leaves every node's textual
content unchanged (every matched token is unknown). -/
theorem claim_C10_defaults :
    initEngine ⟨none, none⟩ = ⟨[], true⟩ ∧
    (∀ mm : Option NsMap, (initEngine ⟨mm, none⟩).replaceMode = true) ∧
    (∀ ob : Option Bool, (initEngine ⟨none, ob⟩).idMap = []) ∧
    (∀ (b : Bool) (n : DomNode),
        textContentList (walkNode [] b n) = textContent n) ∧
    (∀ (b : Bool) (l : List DomNode),
        textContentList (walkChildren [] b l) = textContentList l) :=
  ⟨rfl, fun _ => rfl, fun _ => rfl,
   walkNode_empty_map, walkChildren_empty_map⟩

end GcpNs
